import Mathlib

/-!
# Verification of the hierarchical-scraper crawl core

A shallow embedding of the EPFL hierarchical scraper
(`pupetter_scraper/epfl-hierarchical-scraper.js`) and of the reindex
manifest generator (`generate-reindex-manifest.js`), with theorems
settling the specification's claims about URL normalization, the crawl
state store, the page-fetch state effects, and the manifest diff.

Strings are modelled through their character lists (`List Char`), and the
WHATWG `URL` operations the scraper uses (`new URL(s)`, `url.hash = ''`,
`url.searchParams.sort()`, `url.toString()`) are modelled by an executable
parser/serializer over a `Url` record covering the fragment of the URL
grammar the scraper manipulates.  `URLSearchParams.sort()` is, per the URL
standard, a *stable* sort by parameter name; it is modelled by Mathlib's
stable `List.insertionSort`.
-/

/-- Character lists: the working representation of strings. -/
abbrev Chars := List Char

/-- Split a character list at the first occurrence of `c`: returns the part
before it and, when `c` occurs, the part after it. -/
def breakAt (c : Char) : Chars → Chars × Option Chars
  | [] => ([], none)
  | x :: xs =>
    if x = c then ([], some xs)
    else
      let r := breakAt c xs
      (x :: r.1, r.2)

/-- Split a character list on every occurrence of `c` (the separator is
dropped; empty pieces are kept, as JavaScript's `split` does). -/
def splitOnChar (c : Char) : Chars → List Chars
  | [] => [[]]
  | x :: xs =>
    if x = c then [] :: splitOnChar c xs
    else
      match splitOnChar c xs with
      | [] => [[x]]
      | p :: ps => (x :: p) :: ps

/-- The URL record manipulated by the scraper: scheme, host (including any
port), path, parsed query parameters, and fragment (empty = absent). -/
structure Url where
  scheme : Chars
  host : Chars
  pathname : Chars
  query : List (Chars × Chars)
  fragment : Chars
deriving Repr, DecidableEq

/-- One `key=value` piece of a query string: the key is everything before
the first `=`, the value everything after it (empty when there is no `=`),
as `URLSearchParams` parses it. -/
def parseParam (piece : Chars) : Chars × Chars :=
  match breakAt '=' piece with
  | (k, some v) => (k, v)
  | (k, none) => (k, [])

/-- Parse a raw query string into its parameter list: split on `&`, drop
empty pieces, split each piece at its first `=`. -/
def parseQuery (q : Chars) : List (Chars × Chars) :=
  ((splitOnChar '&' q).filter (· ≠ [])).map parseParam

/-- Model of `new URL(s)` on the grammar the scraper uses:
`scheme://host[/path][?query][#fragment]` with a nonempty all-alphabetic
scheme and a nonempty host.  Inputs outside this grammar (the scraper only
ever feeds it absolute http/https URLs, or junk that the real parser also
rejects) yield `none`, the model of the `TypeError` thrown by `new URL`. -/
def parseUrl (l : Chars) : Option Url :=
  match breakAt ':' l with
  | (sch, some rest₀) =>
    match rest₀ with
    | x :: y :: rest =>
      if x ≠ '/' ∨ y ≠ '/' then none
      else if sch = [] ∨ ¬ sch.all (·.isAlpha) then none
      else
        match breakAt '#' rest with
        | (beforeHash, fragPart) =>
          match breakAt '?' beforeHash with
          | (beforeQuery, queryPart) =>
            match breakAt '/' beforeQuery with
            | (host, pathPart) =>
              if host = [] then none
              else
                some { scheme := sch
                       host := host
                       pathname := '/' :: pathPart.getD []
                       query := match queryPart with
                                | none => []
                                | some q => parseQuery q
                       fragment := fragPart.getD [] }
    | _ => none
  | (_, none) => none

/-- Boolean lexicographic order on character lists, used as the sort key
comparison for query parameters (the URL standard compares names by code
unit). -/
def lexLe : Chars → Chars → Bool
  | [], _ => true
  | _ :: _, [] => false
  | a :: as, b :: bs => if a < b then true else if b < a then false else lexLe as bs

/-- Query parameters are ordered by their keys. -/
def keyLE (p q : Chars × Chars) : Prop := lexLe p.1 q.1 = true

instance : DecidableRel keyLE := fun p q => inferInstanceAs (Decidable (lexLe p.1 q.1 = true))

/-- Model of `URLSearchParams.sort()`: a *stable* sort of the parameter
list by key (the URL standard: relative order between equal names is
preserved).  `List.insertionSort` with the reflexive key order is exactly
this stable sort. -/
def sortParams (q : List (Chars × Chars)) : List (Chars × Chars) :=
  List.insertionSort keyLE q

/-- Serialize a nonempty parameter list back into the query string, with
each parameter rendered `key=value` as `URLSearchParams` does. -/
def serializeParams : List (Chars × Chars) → Chars
  | [] => []
  | [(k, v)] => k ++ '=' :: v
  | (k, v) :: rest => k ++ '=' :: v ++ '&' :: serializeParams rest

/-- The query component of a serialized URL: empty when there are no
parameters, otherwise `?` followed by the rendered parameters. -/
def serializeQuery (q : List (Chars × Chars)) : Chars :=
  match q with
  | [] => []
  | _ => '?' :: serializeParams q

/-- Model of `url.toString()` for the grammar of `parseUrl`. -/
def serializeUrl (u : Url) : Chars :=
  u.scheme ++ ':' :: '/' :: '/' :: u.host ++ u.pathname ++ serializeQuery u.query
    ++ (if u.fragment = [] then [] else '#' :: u.fragment)

/-- The canonicalization the scraper applies inside `normalizeUrl`:
`urlObj.hash = ''` then `urlObj.searchParams.sort()`. -/
def Url.canonical (u : Url) : Url :=
  { u with fragment := [], query := sortParams u.query }

/-- `normalizeUrl(urlStr)` from the scraper: parse, strip the fragment,
stably sort the query parameters, and re-serialize; the `catch` branch
returns the input string unchanged when parsing fails. -/
def normalizeUrl (s : String) : String :=
  match parseUrl s.data with
  | some u => ⟨serializeUrl u.canonical⟩
  | none => s

/-! ## URL policy: scope, exclusion, downloadability -/

/-- `p` is a prefix of `s` — JavaScript's `String.startsWith`. -/
def startsWithStr (s p : String) : Bool := p.data.isPrefixOf s.data

/-- `needle` occurs as a contiguous substring of `hay`. -/
def hasSubstr (needle : Chars) : Chars → Bool
  | [] => needle.isEmpty
  | x :: xs => needle.isPrefixOf (x :: xs) || hasSubstr needle xs

/-- Lowercased character list of a string, for the case-insensitive `/i`
regex tests and for `toLowerCase()`. -/
def lowerChars (s : String) : Chars := s.data.map Char.toLower

/-- Case-insensitive suffix test (a `/…$/i` regex on the URL string). -/
def endsWithCI (s suffix : String) : Bool := (lowerChars suffix).isSuffixOf (lowerChars s)

/-- Case-insensitive substring test (an unanchored `/…/i` regex). -/
def containsCI (s sub : String) : Bool := hasSubstr (lowerChars sub) (lowerChars s)

/-- `config.crawling.downloadableFileTypes`. -/
def downloadableFileTypes : List String :=
  [".pdf", ".doc", ".docx", ".ppt", ".pptx", ".xls", ".xlsx", ".zip", ".rar", ".csv"]

/-- `config.crawling.excludePatterns` applied to the absolute URL string:
the media-extension regexes are anchored suffix tests, the rest are
substring tests, all case-insensitive. -/
def isExcludedByPattern (s : String) : Bool :=
  ([".jpg", ".jpeg", ".png", ".gif", ".svg", ".ico", ".webp", ".bmp",
    ".mp4", ".avi", ".mov", ".wmv", ".flv", ".webm",
    ".mp3", ".wav", ".ogg", ".flac"].any (endsWithCI s ·))
  || (["/logout", "/signout", "/deconnexion", "mailto:", "tel:"].any (containsCI s ·))

/-- `isUnderRootUrl(url)`: the normalized URL string starts with one of the
configured root URLs (purely lexical prefix match). -/
def isUnderRootUrl (url : String) (rootUrls : List String) : Bool :=
  let normalizedUrl := normalizeUrl url
  rootUrls.any (fun rootUrl => startsWithStr normalizedUrl rootUrl)

/-- `isAllowedUrl(url, currentUrl)`: resolve the link to an absolute URL
string, require it under a root URL, and reject excluded patterns; any
parse failure is caught and yields `false`.  The links the crawler feeds
in are already absolute (`extractLinksFromPage` resolves them against the
document base), so the `currentUrl` base is never consulted and the model
re-serializes the parsed link as `new URL(url).toString()` does. -/
def isAllowedUrl (url : String) (rootUrls : List String) : Bool :=
  match parseUrl url.data with
  | none => false
  | some u =>
    let absoluteUrlStr : String := ⟨serializeUrl u⟩
    if ¬ isUnderRootUrl absoluteUrlStr rootUrls then false
    else if isExcludedByPattern absoluteUrlStr then false
    else true

/-- `isDownloadableFile(url)` on a parsed URL: the lowercased pathname ends
with one of the configured document extensions. -/
def isDownloadableFile (u : Url) : Bool :=
  downloadableFileTypes.any (fun ext => ext.data.isSuffixOf (u.pathname.map Char.toLower))

/-- `isDownloadableFile` on the URL string: `new URL(url)` throws on an
unparseable string (`none` here); otherwise test the pathname. -/
def isDownloadableFileS (s : String) : Option Bool :=
  (parseUrl s.data).map isDownloadableFile

/-! ## Crawl state store (`class CrawlerState`) -/

/-- `FrontierEntry` metadata: `{referrer, addedAt, depth}`. -/
structure FrontierMeta where
  referrer : Option String
  addedAt : String
  depth : Nat
deriving Repr, DecidableEq

/-- `FailureRecord`: `{error, timestamp, referrer}`. -/
structure FailureRecord where
  error : String
  timestamp : String
  referrer : Option String
deriving Repr, DecidableEq

/-- First-match association lookup — `Map.get` / `Map.has` on a JavaScript
`Map` represented as its insertion-ordered entry list. -/
def lookupKey {β : Type} (k : String) : List (String × β) → Option β
  | [] => none
  | (k', v) :: rest => if k' = k then some v else lookupKey k rest

/-- `Map.set` on an existing or new key: overwrite in place, else append —
JavaScript `Map.set` semantics on the entry list. -/
def setKey {β : Type} (k : String) (v : β) : List (String × β) → List (String × β)
  | [] => [(k, v)]
  | (k', v') :: rest => if k' = k then (k, v) :: rest else (k', v') :: setKey k v rest

/-- The crawler's in-memory state: `visited` (a `Set`, insertion-ordered
with no duplicates), `toVisit` and `failed` (insertion-ordered `Map`s).
The `stateFile` path the class also stores is passed explicitly to the
persistence operations below. -/
structure CrawlerState where
  visited : List String
  toVisit : List (String × FrontierMeta)
  failed : List (String × FailureRecord)
deriving Repr, DecidableEq

/-- The constructor's field initializers: empty set, empty maps. -/
def emptyCrawlerState : CrawlerState := ⟨[], [], []⟩

/-- `addUrl(url, referrer, currentDepth)`: normalize; drop a falsy (empty)
result; no-op when the normalized URL is already visited or queued;
otherwise append a frontier entry.  `addedAt` is `new Date().toISOString()`,
passed in as `now`. -/
def CrawlerState.addUrl (st : CrawlerState) (url : String) (referrer : Option String)
    (currentDepth : Nat) (now : String) : CrawlerState :=
  let normalized := normalizeUrl url
  if normalized = "" then st
  else if normalized ∈ st.visited ∨ (lookupKey normalized st.toVisit).isSome then st
  else { st with toVisit := st.toVisit ++ [(normalized, ⟨referrer, now, currentDepth⟩)] }

/-- `getNextUrl()`: take and remove the oldest frontier entry. -/
def CrawlerState.getNextUrl (st : CrawlerState) :
    Option ((String × FrontierMeta) × CrawlerState) :=
  match st.toVisit with
  | [] => none
  | e :: rest => some (e, { st with toVisit := rest })

/-- `markVisited(url)`: add the normalized URL to the visited set. -/
def CrawlerState.markVisited (st : CrawlerState) (url : String) : CrawlerState :=
  let n := normalizeUrl url
  { st with visited := if n ∈ st.visited then st.visited else st.visited ++ [n] }

/-- `markFailed(url, error, referrer)`: record (or overwrite) the failure
for the normalized URL. -/
def CrawlerState.markFailed (st : CrawlerState) (url : String) (error : String)
    (referrer : Option String) (now : String) : CrawlerState :=
  { st with failed := setKey (normalizeUrl url) ⟨error, now, referrer⟩ st.failed }

/-! ## Persistence (`save` / `load`) -/

/-- A filesystem operation, for observing `save`'s write discipline. -/
inductive FsOp
  | writeFile (path : String) (content : String)
  | rename (src : String) (dst : String)
deriving Repr, DecidableEq

/-- The serialized form `save()` writes: all of `visited`, `toVisit`,
`failed` and `lastUpdated`, as one complete document.  The exact JSON
text is immaterial to the claims; what matters is that the whole state is
serialized in one piece. -/
def serializeState (st : CrawlerState) (now : String) : String :=
  "visited=" ++ String.intercalate "," st.visited
    ++ ";toVisit=" ++ String.intercalate "," (st.toVisit.map Prod.fst)
    ++ ";failed=" ++ String.intercalate "," (st.failed.map Prod.fst)
    ++ ";lastUpdated=" ++ now

/-- `save()`: one `fs.writeJSONSync(this.stateFile, state)` call — a single
direct write of the complete serialized state to the state-file path (a
write error is caught and only logged, leaving the operation sequence as
issued). -/
def CrawlerState.save (st : CrawlerState) (stateFile : String) (now : String) : List FsOp :=
  [FsOp.writeFile stateFile (serializeState st now)]

/-- The shape the specification asserts for every snapshot: a write of the
complete state to a temporary path followed by a rename into place. -/
def atomicSaveShape (ops : List FsOp) (stateFile : String) : Prop :=
  ∃ tmp content, tmp ≠ stateFile ∧ ops = [FsOp.writeFile tmp content, FsOp.rename tmp stateFile]

/-- The parsed contents of a state file, with each field optional
(`state.visited || []` etc. default missing fields). -/
structure ParsedState where
  visited : Option (List String)
  toVisit : Option (List (String × FrontierMeta))
  failed : Option (List (String × FailureRecord))
deriving Repr, DecidableEq

/-- What `load()` finds on disk: no file (`fs.existsSync` false), a file
`fs.readJSONSync` throws on (unreadable or unparseable), or parsed JSON. -/
inductive LoadedFile
  | absent
  | unreadable
  | parsed (ps : ParsedState)
deriving Repr, DecidableEq

/-- `load()`: a missing file leaves the state as constructed; a read/parse
error is caught, logged, and likewise leaves the fields at their prior
(constructor-initial) values — there is no abort path; parsed contents
replace the three collections, defaulting missing fields to empty. -/
def CrawlerState.load (st : CrawlerState) (f : LoadedFile) : CrawlerState :=
  match f with
  | .absent => st
  | .unreadable => st
  | .parsed ps =>
      { visited := ps.visited.getD []
        toVisit := ps.toVisit.getD []
        failed := ps.failed.getD [] }

/-- The `CrawlerState` constructor: initialize empty, then `load()`. -/
def newCrawlerState (f : LoadedFile) : CrawlerState :=
  emptyCrawlerState.load f

/-! ## Page fetch (`crawlPage`) -/

/-- What `page.goto` came back with: no response object, or a response
with an HTTP status; on a processable page the crawler then extracts the
anchor targets (already resolved to absolute URL strings). -/
inductive NavResult
  | noResponse
  | response (status : Nat) (links : List String)
deriving Repr, DecidableEq

/-- The link partition loop of `crawlPage`: each extracted link is first
tested with `isDownloadableFile` (document links are collected regardless
of scope), and only otherwise tested with `isAllowedUrl`; a link neither
downloadable nor allowed is dropped.  `new URL` throwing inside
`isDownloadableFile` (unparseable link) aborts the loop — `none` — which
the page-level `catch` turns into a page failure. -/
def partitionLinks (links : List String) (rootUrls : List String) :
    Option (List String × List String) :=
  match links with
  | [] => some ([], [])
  | link :: rest =>
    match isDownloadableFileS link with
    | none => none
    | some d =>
      match partitionLinks rest rootUrls with
      | none => none
      | some (documentLinks, htmlLinks) =>
        if d then some (link :: documentLinks, htmlLinks)
        else if isAllowedUrl link rootUrls then some (documentLinks, link :: htmlLinks)
        else some (documentLinks, htmlLinks)

/-- The link-enqueueing loop at the end of a successful `crawlPage`: for
each crawlable link, normalize, skip falsy/visited/queued ones, and
`addUrl` it at `currentDepth + 1` with the page as referrer. -/
def addLinksLoop (cs : CrawlerState) (htmlLinks : List String) (pageUrl : String)
    (currentDepth : Nat) (now : String) : CrawlerState :=
  htmlLinks.foldl
    (fun c link =>
      let absoluteLink := normalizeUrl link
      if absoluteLink ≠ "" ∧ absoluteLink ∉ c.visited ∧ (lookupKey absoluteLink c.toVisit).isNone
      then c.addUrl absoluteLink (some pageUrl) (currentDepth + 1) now
      else c)
    cs

/-- The observable outcome of one `crawlPage` call: the crawler state it
leaves behind and the document links it attempted to download. -/
structure PageEffects where
  state : CrawlerState
  downloadsAttempted : List String
deriving Repr, DecidableEq

/-- The crawl-state effects of `crawlPage(browser, state, urlInfo, depth)`
after the page was dequeued: the depth and max-pages guards return with no
state change; a missing response or a 404/4xx/5xx status marks the URL
failed; otherwise the links are partitioned (a partition exception fails
the page), every document link is downloaded, the URL is marked visited,
and crawlable links are enqueued when the depth cap allows.  The purely
file-system side effects (HTML/metadata artifacts) are outside the state
model. -/
def crawlPageModel (cs : CrawlerState) (url : String) (currentDepth : Nat)
    (referrer : Option String) (nav : NavResult) (rootUrls : List String)
    (now : String) (maxDepth maxPages : Nat) : PageEffects :=
  if currentDepth > maxDepth then ⟨cs, []⟩
  else if cs.visited.length ≥ maxPages then ⟨cs, []⟩
  else
    match nav with
    | .noResponse => ⟨cs.markFailed url "Navigation returned no response." referrer now, []⟩
    | .response status allLinks =>
      if status = 404 then ⟨cs.markFailed url "404 Not Found" referrer now, []⟩
      else if 400 ≤ status then
        ⟨cs.markFailed url ("HTTP " ++ toString status) referrer now, []⟩
      else
        match partitionLinks allLinks rootUrls with
        | none => ⟨cs.markFailed url "Invalid URL" referrer now, []⟩
        | some (documentLinks, htmlLinks) =>
          let cs₁ := cs.markVisited url
          let cs₂ := if currentDepth < maxDepth
                     then addLinksLoop cs₁ htmlLinks url currentDepth now
                     else cs₁
          ⟨cs₂, documentLinks⟩

/-! ## Worker pool runs

`CrawlerPool` keeps up to `concurrentPages` pages in flight: `processNext`
dequeues a frontier entry, `crawlPage` then runs through its navigation
awaits, and the state mutations of its outcome (`markVisited`/`markFailed`,
the enqueue loop, `save`) execute synchronously in one JavaScript
micro-task.  A run is therefore a sequence of events in which dequeues and
page-outcome batches interleave, with each batch atomic, and every batch
boundary is a `save` checkpoint. -/

/-- One scheduler event of the pool: dequeue the oldest frontier entry for
a free worker, or complete an in-flight page (the depth/max-pages guards
skip it, or its navigation outcome succeeds or fails). -/
inductive PoolEvent
  | dequeue
  | finishSkip (url : String)
  | finishOk (url : String) (links : List String) (now : String)
  | finishFail (url : String) (error : String) (now : String)
deriving Repr, DecidableEq

/-- A pool configuration: `config.crawling`'s `maxDepth`, `maxPages` and
`concurrentPages`. -/
structure PoolConfig where
  maxDepth : Nat
  maxPages : Nat
  concurrentPages : Nat
deriving Repr, DecidableEq

/-- The pool's run-time state: the shared `CrawlerState` and the frontier
entries currently in flight with a worker. -/
structure PoolState where
  cs : CrawlerState
  inFlight : List (String × FrontierMeta)
deriving Repr, DecidableEq

/-- Remove the (unique) in-flight entry with the given key. -/
def removeKey {β : Type} (k : String) : List (String × β) → List (String × β)
  | [] => []
  | (k', v) :: rest => if k' = k then rest else (k', v) :: removeKey k rest

/-- One pool event, `none` when the event is not possible for the code at
this state (no free worker, empty frontier, URL not in flight, or a guard
condition that forces a different completion kind). -/
def poolStep (cfg : PoolConfig) (ps : PoolState) (e : PoolEvent) : Option PoolState :=
  match e with
  | .dequeue =>
    if ps.inFlight.length < cfg.concurrentPages then
      match ps.cs.getNextUrl with
      | none => none
      | some (entry, cs') => some ⟨cs', ps.inFlight ++ [entry]⟩
    else none
  | .finishSkip url =>
    match lookupKey url ps.inFlight with
    | none => none
    | some meta =>
      if meta.depth > cfg.maxDepth ∨ ps.cs.visited.length ≥ cfg.maxPages then
        some ⟨ps.cs, removeKey url ps.inFlight⟩
      else none
  | .finishOk url links now =>
    match lookupKey url ps.inFlight with
    | none => none
    | some meta =>
      if meta.depth > cfg.maxDepth ∨ ps.cs.visited.length ≥ cfg.maxPages then none
      else
        let cs₁ := ps.cs.markVisited url
        let cs₂ := if meta.depth < cfg.maxDepth
                   then addLinksLoop cs₁ links url meta.depth now
                   else cs₁
        some ⟨cs₂, removeKey url ps.inFlight⟩
  | .finishFail url error now =>
    match lookupKey url ps.inFlight with
    | none => none
    | some meta =>
      if meta.depth > cfg.maxDepth ∨ ps.cs.visited.length ≥ cfg.maxPages then none
      else some ⟨ps.cs.markFailed url error meta.referrer now, removeKey url ps.inFlight⟩

/-- A pool run: fold the events, failing if any event is impossible. -/
def runPool (cfg : PoolConfig) (ps : PoolState) (events : List PoolEvent) : Option PoolState :=
  events.foldlM (poolStep cfg) ps

/-- The default `config.crawling` limits. -/
def defaultPoolConfig : PoolConfig := ⟨15, 100000, 3⟩

/-- `visited ∩ frontier = ∅`: no visited URL is a key of `toVisit`. -/
def disjointVisitedFrontier (cs : CrawlerState) : Prop :=
  ∀ u ∈ cs.visited, lookupKey u cs.toVisit = none

instance (cs : CrawlerState) : Decidable (disjointVisitedFrontier cs) :=
  inferInstanceAs (Decidable (∀ u ∈ cs.visited, lookupKey u cs.toVisit = none))

/-! ## Sequential runs (at most one page in flight) -/

/-- The outcome of the single in-flight page in a sequential run. -/
inductive PageOutcome
  | skip
  | ok (links : List String) (now : String)
  | fail (error : String) (now : String)
deriving Repr, DecidableEq

/-- One sequential page: dequeue the oldest frontier entry and immediately
apply its complete outcome batch (nothing to do on an empty frontier). -/
def seqStep (maxDepth : Nat) (cs : CrawlerState) (o : PageOutcome) : CrawlerState :=
  match cs.getNextUrl with
  | none => cs
  | some ((url, meta), cs') =>
    match o with
    | .skip => cs'
    | .fail error now => cs'.markFailed url error meta.referrer now
    | .ok links now =>
      let cs₁ := cs'.markVisited url
      if meta.depth < maxDepth then addLinksLoop cs₁ links url meta.depth now else cs₁

/-- A sequential run: one page at a time, each outcome applied before the
next dequeue. -/
def runSeq (maxDepth : Nat) (cs : CrawlerState) (outs : List PageOutcome) : CrawlerState :=
  outs.foldl (seqStep maxDepth) cs

/-- The state invariant maintained by the store's operations: visited and
frontier are disjoint, frontier keys are unique (it is a `Map`), and every
frontier key is already in normal form (it was produced by `normalizeUrl`,
which is idempotent — proved below). -/
def CrawlerStateInv (cs : CrawlerState) : Prop :=
  disjointVisitedFrontier cs
    ∧ (cs.toVisit.map Prod.fst).Nodup
    ∧ ∀ p ∈ cs.toVisit, normalizeUrl p.1 = p.1

instance (cs : CrawlerState) : Decidable (CrawlerStateInv cs) :=
  inferInstanceAs (Decidable (_ ∧ _ ∧ _))

/-! ## Reindex manifest generator (`generate-reindex-manifest.js`) -/

/-- Per-page record of a metadata tree, as `findMetadataFiles` collects it:
`contentHash` is `metadata.contentHash || null` (so `none` models both a
missing and a falsy hash), plus the folder path, title, and downloaded
document count. -/
structure PageRecord where
  contentHash : Option String
  folderPath : String
  title : Option String
  downloadedDocuments : Nat
deriving Repr, DecidableEq

/-- A metadata tree: the URL-keyed map of page records (insertion-ordered,
unique keys). -/
abbrev MetaTree := List (String × PageRecord)

/-- Manifest entry statuses. -/
inductive EntryStatus
  | added
  | changed
  | unchanged
  | removed
deriving Repr, DecidableEq

/-- One `manifest.pages` entry (fields that a branch does not set are
`none`). -/
structure ManifestEntry where
  url : String
  status : EntryStatus
  reason : Option String
  reindex : Bool
  folderPath : String
  title : Option String
  oldHash : Option String
  newHash : Option String
deriving Repr, DecidableEq

/-- `manifest.summary`. -/
structure ManifestSummary where
  added : Nat
  changed : Nat
  unchanged : Nat
  removed : Nat
deriving Repr, DecidableEq

/-- The full manifest. -/
structure Manifest where
  generatedAt : String
  summary : ManifestSummary
  pages : List ManifestEntry
deriving Repr, DecidableEq

/-- `hash.substring(0, 12)`. -/
def shortHash (h : String) : String := ⟨h.data.take 12⟩

/-- The classification of one page of the new tree, following the branch
order of the generator's loop: absent from old ⇒ `added`; either side
without a hash ⇒ `changed` with `reason = no_hash_available`; differing
hashes ⇒ `changed`; else `unchanged`. -/
def entryForNew (oldPages : MetaTree) (url : String) (newMeta : PageRecord) : ManifestEntry :=
  match lookupKey url oldPages with
  | none =>
    ⟨url, .added, none, true, newMeta.folderPath, newMeta.title, none, none⟩
  | some oldMeta =>
    match newMeta.contentHash, oldMeta.contentHash with
    | some nh, some oh =>
      if nh ≠ oh then
        ⟨url, .changed, none, true, newMeta.folderPath, newMeta.title,
          some (shortHash oh), some (shortHash nh)⟩
      else
        ⟨url, .unchanged, none, false, newMeta.folderPath, newMeta.title, none, none⟩
    | _, _ =>
      ⟨url, .changed, some "no_hash_available", true, newMeta.folderPath, newMeta.title,
        none, none⟩

/-- The entry for a page present only in the old tree. -/
def entryForRemoved (url : String) (oldMeta : PageRecord) : ManifestEntry :=
  ⟨url, .removed, none, false, oldMeta.folderPath, oldMeta.title, none, none⟩

/-- Count of entries with a given status. -/
def countStatus (s : EntryStatus) (pages : List ManifestEntry) : Nat :=
  (pages.filter (fun e => e.status = s)).length

/-- `diff(oldPages, newPages)`: classify every page of the new tree in
order, then append a `removed` entry for every old page absent from the
new tree.  The generator's loop pushes each entry and bumps the summary
counter of that entry's status, so the summary is the per-status count of
the pages list. -/
def generateManifest (oldPages newPages : MetaTree) (now : String) : Manifest :=
  let newEntries := newPages.map (fun p => entryForNew oldPages p.1 p.2)
  let removedEntries :=
    (oldPages.filter (fun p => (lookupKey p.1 newPages).isNone)).map
      (fun p => entryForRemoved p.1 p.2)
  let pages := newEntries ++ removedEntries
  { generatedAt := now
    summary := ⟨countStatus .added pages, countStatus .changed pages,
                countStatus .unchanged pages, countStatus .removed pages⟩
    pages := pages }

/-! ## Auxiliary definitions for the proofs -/

/-- Strict key order on query parameters: key order plus distinct keys.
Vacuously antisymmetric, which is what `List.eq_of_perm_of_sorted`
needs. -/
def keyLT (p q : Chars × Chars) : Prop := keyLE p q ∧ p.1 ≠ q.1

/-- The well-formedness facts `parseUrl` guarantees about its result:
exactly the delimiter-freeness of each component that makes the
serialization parse back to the same record. -/
structure UrlWF (u : Url) : Prop where
  scheme_ne : u.scheme ≠ []
  scheme_alpha : u.scheme.all (·.isAlpha) = true
  host_ne : u.host ≠ []
  host_no_slash : '/' ∉ u.host
  host_no_qmark : '?' ∉ u.host
  host_no_hash : '#' ∉ u.host
  path_shape : ∃ p, u.pathname = '/' :: p
  path_no_qmark : '?' ∉ u.pathname
  path_no_hash : '#' ∉ u.pathname
  query_wf : ∀ kv ∈ u.query,
    '&' ∉ kv.1 ∧ '=' ∉ kv.1 ∧ '#' ∉ kv.1 ∧ '&' ∉ kv.2 ∧ '#' ∉ kv.2

/-- The frontier seeded with two root URLs, as `main` does on a fresh
run. -/
def c4Seeded : CrawlerState :=
  (emptyCrawlerState.addUrl "http://h/a" none 0 "t0").addUrl "http://h/b" none 0 "t0"

/-- A two-worker schedule: both roots are dequeued; page `b` completes
first and re-discovers the still in-flight `a` (not visited, not queued,
so enqueued); then page `a` completes and is marked visited. -/
def c4Events : List PoolEvent :=
  [.dequeue, .dequeue,
   .finishOk "http://h/b" ["http://h/a"] "t1",
   .finishOk "http://h/a" [] "t2"]

/-- The pool state this schedule reaches. -/
def c4Final : PoolState :=
  (runPool defaultPoolConfig ⟨c4Seeded, []⟩ c4Events).getD ⟨emptyCrawlerState, []⟩

/-- A one-page metadata tree whose page has no content hash (legacy data:
`metadata.contentHash || null` is `null`). -/
def c5Tree : MetaTree := [("http://h/p", ⟨none, "p_f3a8", some "P", 0⟩)]

/-- A two-page metadata tree in which every page has a content hash. -/
def c5HashedTree : MetaTree :=
  [("http://h/p", ⟨some "aaaa1111", "p_f3a8", some "P", 2⟩),
   ("http://h/q", ⟨some "bbbb2222", "q_77c1", none, 0⟩)]

/-! ## Association-list lemmas -/

theorem lookupKey_eq_none {β : Type} {k : String} {l : List (String × β)} :
    lookupKey k l = none ↔ k ∉ l.map Prod.fst := by
  induction l with
  | nil => simp [lookupKey]
  | cons p rest ih =>
    obtain ⟨k', v⟩ := p
    by_cases h : k' = k
    · subst h
      simp [lookupKey]
    · simp only [lookupKey, h, if_false, List.map_cons, List.mem_cons]
      rw [ih]
      constructor
      · intro hnone hor
        rcases hor with h1 | h2
        · exact h h1.symm
        · exact hnone h2
      · intro hmem hk
        exact hmem (Or.inr hk)

theorem lookupKey_append_of_none {β : Type} {k : String} {l₁ l₂ : List (String × β)}
    (h : lookupKey k l₁ = none) : lookupKey k (l₁ ++ l₂) = lookupKey k l₂ := by
  induction l₁ with
  | nil => rfl
  | cons p rest ih =>
    obtain ⟨k', v⟩ := p
    by_cases hk : k' = k
    · rw [show lookupKey k ((k', v) :: rest) = some v from by simp [lookupKey, hk]] at h
      cases h
    · have h' : lookupKey k rest = none := by
        rw [show lookupKey k ((k', v) :: rest) = lookupKey k rest from by
          simp [lookupKey, hk]] at h
        exact h
      show lookupKey k ((k', v) :: (rest ++ l₂)) = lookupKey k l₂
      simp only [lookupKey, hk, if_false]
      exact ih h'

theorem lookupKey_isSome_of_mem {β : Type} {k : String} {v : β} {l : List (String × β)}
    (h : (k, v) ∈ l) : (lookupKey k l).isSome := by
  induction l with
  | nil => cases h
  | cons p rest ih =>
    obtain ⟨k', v'⟩ := p
    by_cases hk : k' = k
    · simp [lookupKey, hk]
    · rcases List.mem_cons.mp h with h' | h'
      · cases h'; simp at hk
      · simp only [lookupKey, hk, if_false]
        exact ih h'

theorem lookupKey_of_mem_nodup {β : Type} {k : String} {v : β} {l : List (String × β)}
    (hnd : (l.map Prod.fst).Nodup) (h : (k, v) ∈ l) : lookupKey k l = some v := by
  induction l with
  | nil => cases h
  | cons p rest ih =>
    obtain ⟨k', v'⟩ := p
    simp only [List.map_cons, List.nodup_cons] at hnd
    rcases List.mem_cons.mp h with h' | h'
    · cases h'; simp [lookupKey]
    · have hkk : k' ≠ k := by
        intro heq
        exact hnd.1 (List.mem_map.mpr ⟨(k, v), h', by rw [heq]⟩)
      simp only [lookupKey, hkk, if_false]
      exact ih hnd.2 h'

theorem lookupKey_setKey_self {β : Type} (k : String) (v : β) (l : List (String × β)) :
    lookupKey k (setKey k v l) = some v := by
  induction l with
  | nil => simp [setKey, lookupKey]
  | cons p rest ih =>
    obtain ⟨k', v'⟩ := p
    by_cases hk : k' = k <;> simp [setKey, lookupKey, hk, ih]

/-! ## `breakAt` and `splitOnChar` lemmas -/

theorem breakAt_of_not_mem {c : Char} {l : Chars} (h : c ∉ l) :
    breakAt c l = (l, none) := by
  induction l with
  | nil => rfl
  | cons x xs ih =>
    simp only [List.mem_cons, not_or] at h
    simp [breakAt, Ne.symm h.1, ih h.2]

theorem breakAt_append {c : Char} {a b : Chars} (h : c ∉ a) :
    breakAt c (a ++ c :: b) = (a, some b) := by
  induction a with
  | nil => simp [breakAt]
  | cons x xs ih =>
    simp only [List.mem_cons, not_or] at h
    simp [breakAt, Ne.symm h.1, ih h.2]

theorem breakAt_some {c : Char} {l a b : Chars} (h : breakAt c l = (a, some b)) :
    l = a ++ c :: b ∧ c ∉ a := by
  induction l generalizing a with
  | nil => simp [breakAt] at h
  | cons x xs ih =>
    by_cases hx : x = c
    · subst hx
      have hred : breakAt x (x :: xs) = ([], some xs) := by simp [breakAt]
      rw [hred] at h
      injection h with h1 h2
      injection h2 with h2
      subst h1; subst h2
      simp
    · simp only [breakAt, hx, if_false, Prod.mk.injEq] at h
      obtain ⟨ha, hb⟩ := h
      have hxsr : breakAt c xs = ((breakAt c xs).1, some b) :=
        Prod.ext rfl hb
      obtain ⟨hdec, hmem⟩ := ih hxsr
      subst ha
      constructor
      · rw [List.cons_append, ← hdec]
      · simp only [List.mem_cons, not_or]
        exact ⟨fun hc => hx hc.symm, hmem⟩

theorem breakAt_none {c : Char} {l a : Chars} (h : breakAt c l = (a, none)) :
    a = l ∧ c ∉ l := by
  induction l generalizing a with
  | nil =>
    simp only [breakAt, Prod.mk.injEq] at h
    simp [← h.1]
  | cons x xs ih =>
    by_cases hx : x = c
    · subst hx
      have hred : breakAt x (x :: xs) = ([], some xs) := by simp [breakAt]
      rw [hred] at h
      injection h with h1 h2
      exact Option.noConfusion h2
    · simp only [breakAt, hx, if_false, Prod.mk.injEq] at h
      obtain ⟨ha, hb⟩ := h
      have hxsr : breakAt c xs = ((breakAt c xs).1, none) :=
        Prod.ext rfl hb
      obtain ⟨hxs, hmem⟩ := ih hxsr
      subst ha
      constructor
      · rw [hxs]
      · simp only [List.mem_cons, not_or]
        exact ⟨fun hc => hx hc.symm, hmem⟩

theorem breakAt_fst_subset {c : Char} {l : Chars} {x : Char}
    (h : x ∈ (breakAt c l).1) : x ∈ l := by
  rcases hsnd : (breakAt c l).2 with _ | b
  · obtain ⟨ha, _⟩ := breakAt_none (l := l) (c := c) (by rw [← hsnd])
    rw [ha] at h; exact h
  · obtain ⟨hl, _⟩ := breakAt_some (l := l) (c := c) (by rw [← hsnd])
    rw [hl]
    exact List.mem_append_left _ h

theorem breakAt_snd_subset {c : Char} {l b : Chars} {x : Char}
    (h : (breakAt c l).2 = some b) (hx : x ∈ b) : x ∈ l := by
  obtain ⟨hl, _⟩ := breakAt_some (l := l) (c := c) (by rw [← h])
  rw [hl]
  exact List.mem_append_right _ (List.mem_cons_of_mem _ hx)

theorem splitOnChar_of_not_mem {c : Char} {l : Chars} (h : c ∉ l) :
    splitOnChar c l = [l] := by
  induction l with
  | nil => rfl
  | cons x xs ih =>
    simp only [List.mem_cons, not_or] at h
    simp [splitOnChar, Ne.symm h.1, ih h.2]

theorem splitOnChar_ne_nil {c : Char} {l : Chars} : splitOnChar c l ≠ [] := by
  induction l with
  | nil => simp [splitOnChar]
  | cons x xs ih =>
    by_cases hx : x = c
    · simp [splitOnChar, hx]
    · simp only [splitOnChar, hx, if_false]
      rcases h : splitOnChar c xs with _ | ⟨p, ps⟩
      · exact absurd h ih
      · simp

theorem splitOnChar_append {c : Char} {a b : Chars} (h : c ∉ a) :
    splitOnChar c (a ++ c :: b) = a :: splitOnChar c b := by
  induction a with
  | nil => simp [splitOnChar]
  | cons x xs ih =>
    simp only [List.mem_cons, not_or] at h
    rw [List.cons_append]
    simp only [splitOnChar, Ne.symm h.1, if_false]
    rw [ih h.2]

theorem splitOnChar_mem_subset {c : Char} {l p : Chars}
    (h : p ∈ splitOnChar c l) : (∀ x ∈ p, x ∈ l) ∧ c ∉ p := by
  induction l generalizing p with
  | nil =>
    simp only [splitOnChar, List.mem_singleton] at h
    subst h; simp
  | cons x xs ih =>
    by_cases hx : x = c
    · simp only [splitOnChar, hx, if_true, List.mem_cons] at h
      rcases h with rfl | h
      · simp
      · obtain ⟨hsub, hmem⟩ := ih h
        exact ⟨fun y hy => List.mem_cons_of_mem _ (hsub y hy), hmem⟩
    · simp only [splitOnChar, hx, if_false] at h
      rcases hs : splitOnChar c xs with _ | ⟨q, qs⟩
      · exact absurd hs splitOnChar_ne_nil
      · rw [hs, List.mem_cons] at h
        rcases h with rfl | h
        · obtain ⟨hsub, hmem⟩ := ih (p := q) (by rw [hs]; exact List.mem_cons_self _ _)
          refine ⟨?_, ?_⟩
          · intro y hy
            rcases List.mem_cons.mp hy with rfl | hy'
            · exact List.mem_cons_self _ _
            · exact List.mem_cons_of_mem _ (hsub y hy')
          · simp only [List.mem_cons, not_or]
            exact ⟨fun hc => hx hc.symm, hmem⟩
        · obtain ⟨hsub, hmem⟩ := ih (p := p) (by rw [hs]; exact List.mem_cons_of_mem _ h)
          exact ⟨fun y hy => List.mem_cons_of_mem _ (hsub y hy), hmem⟩

theorem breakAt_fst_not_mem (c : Char) (l : Chars) : c ∉ (breakAt c l).1 := by
  induction l with
  | nil => simp [breakAt]
  | cons x xs ih =>
    by_cases hx : x = c
    · subst hx
      simp [breakAt]
    · simp only [breakAt, hx, if_false, List.mem_cons, not_or]
      exact ⟨fun hc => hx hc.symm, ih⟩

theorem not_mem_of_all_alpha {l : Chars} {c : Char}
    (h : l.all (·.isAlpha) = true) (hc : c.isAlpha = false) : c ∉ l := by
  intro hm
  have := List.all_eq_true.mp h c hm
  rw [hc] at this
  cases this

/-! ## Well-formedness of parsed URLs -/

theorem parseQuery_wf {q : Chars} (hq : '#' ∉ q) :
    ∀ kv ∈ parseQuery q, '&' ∉ kv.1 ∧ '=' ∉ kv.1 ∧ '#' ∉ kv.1 ∧ '&' ∉ kv.2 ∧ '#' ∉ kv.2 := by
  intro kv hkv
  simp only [parseQuery, List.mem_map, List.mem_filter] at hkv
  obtain ⟨piece, ⟨hpmem, _⟩, hkveq⟩ := hkv
  obtain ⟨hsub, hamp⟩ := splitOnChar_mem_subset hpmem
  have hpieceHash : '#' ∉ piece := fun hm => hq (hsub _ hm)
  rcases heq : breakAt '=' piece with ⟨k, v?⟩
  have hkfst : k = (breakAt '=' piece).1 := by rw [heq]
  have hkeq : '=' ∉ k := by rw [hkfst]; exact breakAt_fst_not_mem _ _
  have hksub : ∀ x ∈ k, x ∈ piece := by
    intro x hx
    exact breakAt_fst_subset (by rw [heq]; exact hx)
  cases v? with
  | none =>
    have : kv = (k, []) := by rw [← hkveq]; simp [parseParam, heq]
    subst this
    exact ⟨fun hm => hamp (hksub _ hm), hkeq, fun hm => hpieceHash (hksub _ hm), by simp, by simp⟩
  | some v =>
    have hvsub : ∀ x ∈ v, x ∈ piece := by
      intro x hx
      exact breakAt_snd_subset (l := piece) (by rw [heq]) hx
    have : kv = (k, v) := by rw [← hkveq]; simp [parseParam, heq]
    subst this
    exact ⟨fun hm => hamp (hksub _ hm), hkeq, fun hm => hpieceHash (hksub _ hm),
      fun hm => hamp (hvsub _ hm), fun hm => hpieceHash (hvsub _ hm)⟩

theorem parse_wf {l : Chars} {u : Url} (h : parseUrl l = some u) : UrlWF u := by
  unfold parseUrl at h
  split at h
  next sch rest0 hcol =>
    split at h
    next x y rest =>
      split at h
      next => exact Option.noConfusion h
      next hxy =>
      split at h
      next => exact Option.noConfusion h
      next hguard =>
      push_neg at hguard
      obtain ⟨hschne, hschalpha⟩ := hguard
      split at h
      next beforeHash fragPart hbh =>
      split at h
      next beforeQuery queryPart hbq =>
      split at h
      next host pathPart hhp =>
      split at h
      next => exact Option.noConfusion h
      next hhost =>
      injection h with h
      subst h
      have hnoHashBH : '#' ∉ beforeHash := by
        rw [show beforeHash = (breakAt '#' rest).1 from by rw [hbh]]
        exact breakAt_fst_not_mem _ _
      have hsubBQ : ∀ z ∈ beforeQuery, z ∈ beforeHash := by
        intro z hz
        exact breakAt_fst_subset (by rw [hbq]; exact hz)
      have hnoQBQ : '?' ∉ beforeQuery := by
        rw [show beforeQuery = (breakAt '?' beforeHash).1 from by rw [hbq]]
        exact breakAt_fst_not_mem _ _
      have hnoHashBQ : '#' ∉ beforeQuery := fun hm => hnoHashBH (hsubBQ _ hm)
      have hsubHost : ∀ z ∈ host, z ∈ beforeQuery := by
        intro z hz
        exact breakAt_fst_subset (by rw [hhp]; exact hz)
      refine ⟨hschne, by simpa using hschalpha, hhost, ?_, ?_, ?_,
        ⟨pathPart.getD [], rfl⟩, ?_, ?_, ?_⟩
      · rw [show host = (breakAt '/' beforeQuery).1 from by rw [hhp]]
        exact breakAt_fst_not_mem _ _
      · exact fun hm => hnoQBQ (hsubHost _ hm)
      · exact fun hm => hnoHashBQ (hsubHost _ hm)
      · cases hpp : pathPart with
        | none => simp
        | some p =>
          have hpsub : ∀ z ∈ p, z ∈ beforeQuery := by
            intro z hz
            exact breakAt_snd_subset (l := beforeQuery) (by rw [hhp, hpp]) hz
          simp only [hpp, Option.getD_some, List.mem_cons, not_or]
          exact ⟨by decide, fun hm => hnoQBQ (hpsub _ hm)⟩
      · cases hpp : pathPart with
        | none => simp
        | some p =>
          have hpsub : ∀ z ∈ p, z ∈ beforeQuery := by
            intro z hz
            exact breakAt_snd_subset (l := beforeQuery) (by rw [hhp, hpp]) hz
          simp only [hpp, Option.getD_some, List.mem_cons, not_or]
          exact ⟨by decide, fun hm => hnoHashBQ (hpsub _ hm)⟩
      · cases hqp : queryPart with
        | none => simp
        | some q =>
          have hqsub : ∀ z ∈ q, z ∈ beforeHash := by
            intro z hz
            exact breakAt_snd_subset (l := beforeHash) (by rw [hbq, hqp]) hz
          have hqhash : '#' ∉ q := fun hm => hnoHashBH (hqsub _ hm)
          simpa using parseQuery_wf hqhash
    next => exact Option.noConfusion h
  next => exact Option.noConfusion h

/-! ## Serialization round trip -/

theorem serializeParams_not_mem {c : Char} {q : List (Chars × Chars)}
    (hce : c ≠ '=') (hca : c ≠ '&')
    (hq : ∀ kv ∈ q, c ∉ kv.1 ∧ c ∉ kv.2) : c ∉ serializeParams q := by
  induction q with
  | nil => simp [serializeParams]
  | cons kv rest ih =>
    obtain ⟨k, v⟩ := kv
    have h1 := hq (k, v) (List.mem_cons_self _ _)
    cases rest with
    | nil =>
      intro hm
      rw [show serializeParams [(k, v)] = k ++ '=' :: v from rfl] at hm
      rcases List.mem_append.mp hm with hm | hm
      · exact h1.1 hm
      · rcases List.mem_cons.mp hm with hm | hm
        · exact hce hm
        · exact h1.2 hm
    | cons kv2 rest2 =>
      have ih' := ih (fun p hp => hq p (List.mem_cons_of_mem _ hp))
      intro hm
      rw [show serializeParams ((k, v) :: kv2 :: rest2)
            = k ++ '=' :: (v ++ '&' :: serializeParams (kv2 :: rest2)) from by
          simp [serializeParams]] at hm
      rcases List.mem_append.mp hm with hm | hm
      · exact h1.1 hm
      · rcases List.mem_cons.mp hm with hm | hm
        · exact hce hm
        · rcases List.mem_append.mp hm with hm | hm
          · exact h1.2 hm
          · rcases List.mem_cons.mp hm with hm | hm
            · exact hca hm
            · exact ih' hm

theorem parseQuery_serializeParams {q : List (Chars × Chars)} (hne : q ≠ [])
    (hq : ∀ kv ∈ q, '&' ∉ kv.1 ∧ '=' ∉ kv.1 ∧ '&' ∉ kv.2) :
    parseQuery (serializeParams q) = q := by
  induction q with
  | nil => cases hne rfl
  | cons kv rest ih =>
    obtain ⟨k, v⟩ := kv
    obtain ⟨hk1, hk2, hv1⟩ := hq (k, v) (List.mem_cons_self _ _)
    have hka : '&' ∉ k ++ '=' :: v := by
      intro hm
      rcases List.mem_append.mp hm with hm | hm
      · exact hk1 hm
      · rcases List.mem_cons.mp hm with hm | hm
        · exact absurd hm (by decide)
        · exact hv1 hm
    have hpne : (k ++ '=' :: v) ≠ [] := by simp
    have hbk : breakAt '=' (k ++ '=' :: v) = (k, some v) := breakAt_append hk2
    cases rest with
    | nil =>
      rw [show serializeParams [(k, v)] = k ++ '=' :: v from rfl]
      rw [parseQuery, splitOnChar_of_not_mem hka]
      simp [hpne, parseParam, hbk]
    | cons kv2 rest2 =>
      have ihr := ih (by simp) (fun p hp => hq p (List.mem_cons_of_mem _ hp))
      have hser : serializeParams ((k, v) :: kv2 :: rest2)
          = (k ++ '=' :: v) ++ '&' :: serializeParams (kv2 :: rest2) := by
        simp [serializeParams]
      rw [hser, parseQuery, splitOnChar_append hka]
      rw [List.filter_cons_of_pos (by simp [hpne]), List.map_cons]
      rw [show parseParam (k ++ '=' :: v) = (k, v) from by simp [parseParam, hbk]]
      rw [show ((splitOnChar '&' (serializeParams (kv2 :: rest2))).filter (· ≠ [])).map parseParam
            = parseQuery (serializeParams (kv2 :: rest2)) from rfl]
      rw [ihr]

theorem parse_serializeUrl {u : Url} (hwf : UrlWF u) (hf : u.fragment = []) :
    parseUrl (serializeUrl u) = some u := by
  obtain ⟨sch, host, path, query, frag⟩ := u
  obtain ⟨p, hp⟩ := hwf.path_shape
  have hfrag : frag = [] := hf
  have hpath : path = '/' :: p := hp
  subst hfrag
  subst hpath
  have hschalpha : sch.all (·.isAlpha) = true := hwf.scheme_alpha
  have hschne : sch ≠ [] := hwf.scheme_ne
  have hhostne : host ≠ [] := hwf.host_ne
  have hcolon : ':' ∉ sch := not_mem_of_all_alpha hschalpha (by decide)
  have hguard : ¬(sch = [] ∨ ¬ sch.all (·.isAlpha)) := by
    simp [hschne, hschalpha]
  have hqwf : ∀ kv ∈ query, '&' ∉ kv.1 ∧ '=' ∉ kv.1 ∧ '#' ∉ kv.1 ∧ '&' ∉ kv.2 ∧ '#' ∉ kv.2 :=
    hwf.query_wf
  have hhns : '/' ∉ host := hwf.host_no_slash
  have hhnq : '?' ∉ host := hwf.host_no_qmark
  have hhnh : '#' ∉ host := hwf.host_no_hash
  have hpnq : '?' ∉ '/' :: p := hwf.path_no_qmark
  have hpnh : '#' ∉ '/' :: p := hwf.path_no_hash
  cases query with
  | nil =>
    have hser : serializeUrl ⟨sch, host, '/' :: p, [], []⟩
        = sch ++ ':' :: '/' :: '/' :: (host ++ '/' :: p) := by
      simp [serializeUrl, serializeQuery]
    rw [hser]
    unfold parseUrl
    rw [breakAt_append hcolon]
    dsimp only
    rw [if_neg (by decide : ¬(('/' : Char) ≠ '/' ∨ ('/' : Char) ≠ '/')), if_neg hguard]
    have hnohash : '#' ∉ host ++ '/' :: p := by
      intro hm
      rcases List.mem_append.mp hm with hm | hm
      · exact hhnh hm
      · exact hpnh hm
    have hnoq : '?' ∉ host ++ '/' :: p := by
      intro hm
      rcases List.mem_append.mp hm with hm | hm
      · exact hhnq hm
      · exact hpnq hm
    rw [breakAt_of_not_mem hnohash]
    dsimp only
    rw [breakAt_of_not_mem hnoq]
    dsimp only
    rw [breakAt_append hhns]
    dsimp only
    rw [if_neg hhostne]
    rfl
  | cons kv0 qrest =>
    have hserq : serializeQuery (kv0 :: qrest) = '?' :: serializeParams (kv0 :: qrest) := rfl
    have hsp_amp : '#' ∉ serializeParams (kv0 :: qrest) := by
      refine serializeParams_not_mem (by decide) (by decide) ?_
      intro kv hkv
      have := hqwf kv hkv
      exact ⟨this.2.2.1, this.2.2.2.2⟩
    have hser : serializeUrl ⟨sch, host, '/' :: p, kv0 :: qrest, []⟩
        = sch ++ ':' :: '/' :: '/' ::
            ((host ++ '/' :: p) ++ '?' :: serializeParams (kv0 :: qrest)) := by
      simp [serializeUrl, serializeQuery]
    rw [hser]
    unfold parseUrl
    rw [breakAt_append hcolon]
    dsimp only
    rw [if_neg (by decide : ¬(('/' : Char) ≠ '/' ∨ ('/' : Char) ≠ '/')), if_neg hguard]
    have hnohash : '#' ∉ (host ++ '/' :: p) ++ '?' :: serializeParams (kv0 :: qrest) := by
      intro hm
      rcases List.mem_append.mp hm with hm | hm
      · rcases List.mem_append.mp hm with hm | hm
        · exact hhnh hm
        · exact hpnh hm
      · rcases List.mem_cons.mp hm with hm | hm
        · exact absurd hm (by decide)
        · exact hsp_amp hm
    have hnoq : '?' ∉ host ++ '/' :: p := by
      intro hm
      rcases List.mem_append.mp hm with hm | hm
      · exact hhnq hm
      · exact hpnq hm
    rw [breakAt_of_not_mem hnohash]
    dsimp only
    rw [breakAt_append hnoq]
    dsimp only
    rw [breakAt_append hhns]
    dsimp only
    rw [if_neg hhostne]
    rw [parseQuery_serializeParams (by simp)
      (fun kv hkv => ⟨(hqwf kv hkv).1, (hqwf kv hkv).2.1, (hqwf kv hkv).2.2.2.1⟩)]
    rfl

/-! ## The key order and the stable sort -/

theorem lexLe_total (x y : Chars) : lexLe x y = true ∨ lexLe y x = true := by
  induction x generalizing y with
  | nil => left; rfl
  | cons a as ih =>
    cases y with
    | nil => right; rfl
    | cons b bs =>
      rcases lt_trichotomy a b with h | h | h
      · left; simp [lexLe, h]
      · subst h
        rcases ih bs with h' | h'
        · left; simp [lexLe, lt_irrefl, h']
        · right; simp [lexLe, lt_irrefl, h']
      · right; simp [lexLe, h]

theorem lexLe_trans {x y z : Chars} (h₁ : lexLe x y = true) (h₂ : lexLe y z = true) :
    lexLe x z = true := by
  induction x generalizing y z with
  | nil => rfl
  | cons a as ih =>
    cases y with
    | nil => simp [lexLe] at h₁
    | cons b bs =>
      cases z with
      | nil => simp [lexLe] at h₂
      | cons c cs =>
        rcases lt_trichotomy a b with hab | hab | hab
        · rcases lt_trichotomy b c with hbc | hbc | hbc
          · simp [lexLe, lt_trans hab hbc]
          · subst hbc; simp [lexLe, hab]
          · simp [lexLe, asymm hbc, hbc] at h₂
        · subst hab
          rcases lt_trichotomy a c with hac | hac | hac
          · simp [lexLe, hac]
          · subst hac
            simp only [lexLe, lt_irrefl, if_false] at h₁ h₂ ⊢
            exact ih h₁ h₂
          · simp [lexLe, asymm hac, hac] at h₂
        · simp [lexLe, asymm hab, hab] at h₁

theorem lexLe_antisymm {x y : Chars} (h₁ : lexLe x y = true) (h₂ : lexLe y x = true) :
    x = y := by
  induction x generalizing y with
  | nil =>
    cases y with
    | nil => rfl
    | cons b bs => simp [lexLe] at h₂
  | cons a as ih =>
    cases y with
    | nil => simp [lexLe] at h₁
    | cons b bs =>
      rcases lt_trichotomy a b with hab | hab | hab
      · simp [lexLe, asymm hab, hab] at h₂
      · subst hab
        simp only [lexLe, lt_irrefl, if_false] at h₁ h₂
        rw [ih h₁ h₂]
      · simp [lexLe, asymm hab, hab] at h₁

theorem sortParams_perm (l : List (Chars × Chars)) : (sortParams l).Perm l :=
  List.perm_insertionSort keyLE l

theorem sortParams_sorted (l : List (Chars × Chars)) : List.Sorted keyLE (sortParams l) := by
  have htot : IsTotal (Chars × Chars) keyLE := ⟨fun a b => lexLe_total a.1 b.1⟩
  have htrans : IsTrans (Chars × Chars) keyLE := ⟨fun _ _ _ h₁ h₂ => lexLe_trans h₁ h₂⟩
  exact List.sorted_insertionSort keyLE l

theorem sortParams_idem (l : List (Chars × Chars)) :
    sortParams (sortParams l) = sortParams l :=
  List.Sorted.insertionSort_eq (sortParams_sorted l)

theorem sortParams_eq_of_perm_nodup {q₁ q₂ : List (Chars × Chars)}
    (hperm : q₁.Perm q₂) (hnd : (q₁.map Prod.fst).Nodup) :
    sortParams q₁ = sortParams q₂ := by
  have hanti : IsAntisymm (Chars × Chars) keyLT :=
    ⟨fun a b h₁ h₂ => False.elim (h₁.2 (lexLe_antisymm h₁.1 h₂.1))⟩
  have sortedLT : ∀ (q : List (Chars × Chars)), (q.map Prod.fst).Nodup →
      List.Sorted keyLT (sortParams q) := by
    intro q hq
    have hle : List.Pairwise keyLE (sortParams q) := sortParams_sorted q
    have hnd' : ((sortParams q).map Prod.fst).Nodup :=
      (((sortParams_perm q).map Prod.fst).nodup_iff).mpr hq
    have hne : List.Pairwise (fun p r : Chars × Chars => p.1 ≠ r.1) (sortParams q) :=
      List.pairwise_map.mp hnd'
    exact List.Pairwise.imp (fun h => ⟨h.1, h.2⟩) (hle.and hne)
  have hnd₂ : (q₂.map Prod.fst).Nodup := ((hperm.map Prod.fst).nodup_iff).mp hnd
  exact List.eq_of_perm_of_sorted
    ((sortParams_perm q₁).trans (hperm.trans (sortParams_perm q₂).symm))
    (sortedLT q₁ hnd) (sortedLT q₂ hnd₂)

/-! ## Idempotence of `normalizeUrl` -/

theorem canonical_wf {u : Url} (hwf : UrlWF u) : UrlWF u.canonical := by
  refine ⟨hwf.scheme_ne, hwf.scheme_alpha, hwf.host_ne, hwf.host_no_slash,
    hwf.host_no_qmark, hwf.host_no_hash, hwf.path_shape, hwf.path_no_qmark,
    hwf.path_no_hash, ?_⟩
  intro kv hkv
  exact hwf.query_wf kv ((sortParams_perm u.query).mem_iff.mp hkv)

theorem canonical_canonical (u : Url) : u.canonical.canonical = u.canonical := by
  simp [Url.canonical, sortParams_idem]

theorem normalizeUrl_idem (s : String) : normalizeUrl (normalizeUrl s) = normalizeUrl s := by
  rcases hparse : parseUrl s.data with _ | u
  · simp [normalizeUrl, hparse]
  · have h1 : normalizeUrl s = ⟨serializeUrl u.canonical⟩ := by
      simp [normalizeUrl, hparse]
    have hc : parseUrl (serializeUrl u.canonical) = some u.canonical :=
      parse_serializeUrl (canonical_wf (parse_wf hparse)) rfl
    rw [h1]
    simp [normalizeUrl, hc, canonical_canonical]

/-! ## Crawl state store invariant preservation -/

theorem addUrl_eq (st : CrawlerState) (url : String) (ref : Option String)
    (d : Nat) (now : String) :
    st.addUrl url ref d now = st
    ∨ (normalizeUrl url ≠ "" ∧ normalizeUrl url ∉ st.visited
        ∧ lookupKey (normalizeUrl url) st.toVisit = none
        ∧ st.addUrl url ref d now
            = { st with toVisit := st.toVisit ++ [(normalizeUrl url, ⟨ref, now, d⟩)] }) := by
  unfold CrawlerState.addUrl
  by_cases h1 : normalizeUrl url = ""
  · left; simp [h1]
  · by_cases h2 : normalizeUrl url ∈ st.visited ∨ (lookupKey (normalizeUrl url) st.toVisit).isSome
    · left; simp [h1, h2]
    · right
      push_neg at h2
      obtain ⟨h2a, h2b⟩ := h2
      have h2c : lookupKey (normalizeUrl url) st.toVisit = none := by
        cases hl : lookupKey (normalizeUrl url) st.toVisit with
        | none => rfl
        | some v => rw [hl] at h2b; simp at h2b
      refine ⟨h1, h2a, h2c, ?_⟩
      simp only [h1, h2a, h2c]
      simp

theorem addUrl_inv {st : CrawlerState} (h : CrawlerStateInv st)
    (url : String) (ref : Option String) (d : Nat) (now : String) :
    CrawlerStateInv (st.addUrl url ref d now) := by
  rcases addUrl_eq st url ref d now with heq | ⟨hne, hnv, hnq, heq⟩
  · rw [heq]; exact h
  · rw [heq]
    obtain ⟨hdis, hnd, hnorm⟩ := h
    refine ⟨?_, ?_, ?_⟩
    · intro v hv
      have hvn : normalizeUrl url ≠ v := fun hve => hnv (hve ▸ hv)
      rw [lookupKey_append_of_none (hdis v hv)]
      simp [lookupKey, hvn]
    · rw [List.map_append]
      simp only [List.map_cons, List.map_nil]
      rw [List.nodup_append]
      refine ⟨hnd, List.nodup_singleton _, ?_⟩
      intro a ha hb
      simp only [List.mem_singleton] at hb
      subst hb
      exact (lookupKey_eq_none.mp hnq) ha
    · intro pkv hpkv
      rcases List.mem_append.mp hpkv with hm | hm
      · exact hnorm pkv hm
      · simp only [List.mem_singleton] at hm
        rw [hm]
        exact normalizeUrl_idem url

theorem markVisited_inv {st : CrawlerState} (h : CrawlerStateInv st) (url : String)
    (hnq : lookupKey (normalizeUrl url) st.toVisit = none) :
    CrawlerStateInv (st.markVisited url) := by
  obtain ⟨hdis, hnd, hnorm⟩ := h
  unfold CrawlerState.markVisited
  by_cases hmem : normalizeUrl url ∈ st.visited
  · simp only [hmem, if_true]
    exact ⟨hdis, hnd, hnorm⟩
  · simp only [hmem, if_false]
    refine ⟨?_, hnd, hnorm⟩
    intro v hv
    rcases List.mem_append.mp hv with hm | hm
    · exact hdis v hm
    · simp only [List.mem_singleton] at hm
      rw [hm]
      exact hnq

theorem addLinksLoop_inv {st : CrawlerState} (h : CrawlerStateInv st)
    (links : List String) (pageUrl : String) (d : Nat) (now : String) :
    CrawlerStateInv (addLinksLoop st links pageUrl d now) := by
  induction links generalizing st with
  | nil => exact h
  | cons l rest ih =>
    show CrawlerStateInv (addLinksLoop
      (if normalizeUrl l ≠ "" ∧ normalizeUrl l ∉ st.visited
          ∧ (lookupKey (normalizeUrl l) st.toVisit).isNone
       then st.addUrl (normalizeUrl l) (some pageUrl) (d + 1) now
       else st) rest pageUrl d now)
    refine ih ?_
    split
    · exact addUrl_inv h _ _ _ _
    · exact h

theorem seqStep_inv {st : CrawlerState} (h : CrawlerStateInv st)
    (maxDepth : Nat) (o : PageOutcome) :
    CrawlerStateInv (seqStep maxDepth st o) := by
  obtain ⟨hdis, hnd, hnorm⟩ := h
  unfold seqStep
  cases htv : st.toVisit with
  | nil =>
    simp only [CrawlerState.getNextUrl, htv]
    exact ⟨hdis, hnd, hnorm⟩
  | cons e rest =>
    obtain ⟨url, meta⟩ := e
    have hg : st.getNextUrl = some ((url, meta), { st with toVisit := rest }) := by
      simp [CrawlerState.getNextUrl, htv]
    rw [hg]
    dsimp only
    have hndc : url ∉ rest.map Prod.fst ∧ (rest.map Prod.fst).Nodup := by
      have hh := hnd
      rw [htv] at hh
      simpa [List.nodup_cons] using hh
    have hdis' : ∀ v ∈ st.visited, lookupKey v rest = none := by
      intro v hv
      have hl := hdis v hv
      rw [htv] at hl
      by_cases hvu : url = v
      · simp [lookupKey, hvu] at hl
      · simpa [lookupKey, hvu] using hl
    have hnorm' : ∀ p ∈ rest, normalizeUrl p.1 = p.1 := by
      intro p hp
      apply hnorm
      rw [htv]
      exact List.mem_cons_of_mem _ hp
    have hurlnorm : normalizeUrl url = url := by
      have := hnorm (url, meta) (by rw [htv]; exact List.mem_cons_self _ _)
      exact this
    have hst' : CrawlerStateInv { st with toVisit := rest } := ⟨hdis', hndc.2, hnorm'⟩
    cases o with
    | skip => exact hst'
    | fail error now => exact hst'
    | ok links now =>
      have hnq : lookupKey (normalizeUrl url) rest = none := by
        rw [hurlnorm]
        exact lookupKey_eq_none.mpr hndc.1
      have hmv : CrawlerStateInv ({ st with toVisit := rest }.markVisited url) :=
        markVisited_inv hst' url hnq
      dsimp only
      split
      · exact addLinksLoop_inv hmv _ _ _ _
      · exact hmv

theorem runSeq_inv {st : CrawlerState} (h : CrawlerStateInv st)
    (maxDepth : Nat) (outs : List PageOutcome) :
    CrawlerStateInv (runSeq maxDepth st outs) := by
  induction outs generalizing st with
  | nil => exact h
  | cons o rest ih => exact ih (seqStep_inv h maxDepth o)

/-! ## Claim C1: the save write discipline -/

/-- C1 (counterexample): a concrete `save()` call does not have the
write-temp-then-rename shape the claim asserts — it is a single direct
write to the state-file path. -/
theorem c1_counterexample :
    ¬ atomicSaveShape (emptyCrawlerState.save "crawler_state.json" "2025-01-01T00:00:00.000Z")
      "crawler_state.json" := by
  rintro ⟨tmp, content, hne, heq⟩
  simp [CrawlerState.save] at heq

/-- C1 (amended): every `save()` call serializes the complete CrawlState
and issues exactly one write, directly to the state-file path — no
temporary path and no rename, so a kill mid-write is not protected
against. -/
theorem c1_save_single_direct_write (st : CrawlerState) (stateFile now : String) :
    st.save stateFile now = [FsOp.writeFile stateFile (serializeState st now)] := rfl

/-! ## Claim C2: restoring the persisted state -/

/-- C2: `load()` on a missing state file leaves the constructor's empty
state (the claim's first half, true), and on a present but
unreadable/unparseable file the constructor *also* yields the empty state
and the run continues — the error is caught and logged, there is no abort
path, contradicting the claim's fail-fast half. -/
theorem c2_unreadable_state_continues_reset :
    newCrawlerState LoadedFile.absent = emptyCrawlerState
    ∧ newCrawlerState LoadedFile.unreadable = emptyCrawlerState := ⟨rfl, rfl⟩

/-! ## Claim C3: normalize on unparseable input -/

/-- C3 (counterexample): on the unparseable input `"not a url"`,
`normalizeUrl` does not fail — it returns the input string unchanged —
and `addUrl` then enqueues that string rather than dropping the link. -/
theorem c3_counterexample :
    parseUrl "not a url".data = none
    ∧ normalizeUrl "not a url" = "not a url"
    ∧ lookupKey "not a url" ((emptyCrawlerState.addUrl "not a url" none 0 "t0").toVisit)
        = some ⟨none, "t0", 0⟩ := by decide

/-- C3 (amended): for every unparseable input string, `normalizeUrl`
returns the input unchanged (a value, not a `MalformedUrl` failure), and
the caller enqueues the unparseable link whenever it is nonempty and not
already tracked — only the empty string is dropped, by the falsy check. -/
theorem c3_normalize_total_caller_enqueues (s : String) (cs : CrawlerState)
    (ref : Option String) (d : Nat) (now : String)
    (hparse : parseUrl s.data = none) (hne : s ≠ "")
    (hnv : s ∉ cs.visited) (hnq : lookupKey s cs.toVisit = none) :
    normalizeUrl s = s
    ∧ lookupKey s ((cs.addUrl s ref d now).toVisit) = some ⟨ref, now, d⟩ := by
  have hnorm : normalizeUrl s = s := by simp [normalizeUrl, hparse]
  refine ⟨hnorm, ?_⟩
  rcases addUrl_eq cs s ref d now with heq | ⟨_, _, _, heq⟩
  · exfalso
    unfold CrawlerState.addUrl at heq
    rw [hnorm] at heq
    rw [if_neg hne] at heq
    rw [if_neg (by
      push_neg
      refine ⟨hnv, ?_⟩
      simp [hnq])] at heq
    have : cs.toVisit = cs.toVisit ++ [(s, ⟨ref, now, d⟩)] := congrArg CrawlerState.toVisit heq |>.symm
    simp at this
  · rw [heq, hnorm]
    dsimp only
    rw [lookupKey_append_of_none hnq]
    simp [lookupKey]

/-- C3 (witness): the amended statement at the concrete unparseable input
`"not a url"` and the empty state. -/
theorem c3_witness :
    parseUrl "not a url".data = none
    ∧ ("not a url" : String) ≠ ""
    ∧ normalizeUrl "not a url" = "not a url"
    ∧ lookupKey "not a url" ((emptyCrawlerState.addUrl "not a url" none 0 "t0").toVisit)
        = some ⟨none, "t0", 0⟩ := by
  refine ⟨by decide, by decide, ?_⟩
  have h := c3_normalize_total_caller_enqueues "not a url" emptyCrawlerState none 0 "t0"
    (by decide) (by decide) (by decide) (by decide)
  exact ⟨h.1, h.2⟩

/-! ## Claim C4: visited and frontier disjoint at checkpoints -/

/-- C4 (counterexample): a two-worker run of the pool — both roots
dequeued, page `b` completing first and re-discovering the in-flight `a` —
reaches a snapshot checkpoint at which `"http://h/a"` is both in the
visited set and a key of the frontier. -/
theorem c4_counterexample :
    runPool defaultPoolConfig ⟨c4Seeded, []⟩ c4Events = some c4Final
    ∧ "http://h/a" ∈ c4Final.cs.visited
    ∧ lookupKey "http://h/a" c4Final.cs.toVisit
        = some ⟨some "http://h/b", "t1", 1⟩
    ∧ ¬ disjointVisitedFrontier c4Final.cs := by decide

/-- C4 (amended): in every sequential run — each dequeued page's complete
outcome batch applied before the next dequeue, i.e. at most one page in
flight — `visited ∩ frontier = ∅` holds at every snapshot checkpoint,
from any state satisfying the store invariant. -/
theorem c4_sequential_disjoint (maxDepth : Nat) (cs : CrawlerState)
    (outs : List PageOutcome) (h : CrawlerStateInv cs) :
    disjointVisitedFrontier (runSeq maxDepth cs outs) :=
  (runSeq_inv h maxDepth outs).1

/-- C4 (witness): the amended statement on the seeded two-root state and a
concrete sequential schedule. -/
theorem c4_witness :
    CrawlerStateInv c4Seeded
    ∧ disjointVisitedFrontier
        (runSeq 15 c4Seeded
          [PageOutcome.ok ["http://h/c", "http://h/a"] "t1", PageOutcome.fail "HTTP 500" "t2"]) :=
  ⟨by decide, c4_sequential_disjoint 15 c4Seeded _ (by decide)⟩

/-! ## Claim C5: diff of a tree against itself -/

/-- C5 (counterexample): diffing a tree against itself is *not* all
`unchanged` when a page lacks a content hash — the no-hash branch fires
even for identical sides, yielding `summary.changed = 1`. -/
theorem c5_counterexample :
    (generateManifest c5Tree c5Tree "t0").summary.changed = 1
    ∧ ¬ (∀ e ∈ (generateManifest c5Tree c5Tree "t0").pages,
          e.status = EntryStatus.unchanged) := by decide

/-- C5 (amended): for every metadata tree with unique URLs in which every
page carries a content hash, `diff(T, T)` yields only `unchanged` entries
(none marked for reindex) and zero `added`/`changed`/`removed` counts;
pages without a hash are instead classified `changed`
(`reason = no_hash_available`) even against themselves. -/
theorem c5_diff_self_unchanged (T : MetaTree) (now : String)
    (hnd : (T.map Prod.fst).Nodup) (hh : ∀ p ∈ T, p.2.contentHash.isSome) :
    (∀ e ∈ (generateManifest T T now).pages,
        e.status = EntryStatus.unchanged ∧ e.reindex = false)
    ∧ (generateManifest T T now).summary.added = 0
    ∧ (generateManifest T T now).summary.changed = 0
    ∧ (generateManifest T T now).summary.removed = 0 := by
  have hrem : T.filter (fun p => (lookupKey p.1 T).isNone) = [] := by
    rw [List.filter_eq_nil_iff]
    intro p hp
    have hsome := lookupKey_isSome_of_mem (k := p.1) (v := p.2) (by simpa using hp)
    cases hl : lookupKey p.1 T with
    | none => rw [hl] at hsome; simp at hsome
    | some v => simp [hl]
  have hentry : ∀ p ∈ T, entryForNew T p.1 p.2
      = ⟨p.1, EntryStatus.unchanged, none, false, p.2.folderPath, p.2.title, none, none⟩ := by
    intro p hp
    have hl : lookupKey p.1 T = some p.2 := lookupKey_of_mem_nodup hnd (by simpa using hp)
    obtain ⟨a, ha⟩ := Option.isSome_iff_exists.mp (hh p hp)
    unfold entryForNew
    rw [hl]
    simp [ha]
  have hpages : (generateManifest T T now).pages = T.map (fun p => entryForNew T p.1 p.2) := by
    simp [generateManifest, hrem]
  have hall : ∀ e ∈ (generateManifest T T now).pages,
      e.status = EntryStatus.unchanged ∧ e.reindex = false := by
    intro e he
    rw [hpages] at he
    obtain ⟨p, hp, rfl⟩ := List.mem_map.mp he
    rw [hentry p hp]
    exact ⟨rfl, rfl⟩
  have hcount : ∀ st : EntryStatus, st ≠ EntryStatus.unchanged →
      countStatus st (generateManifest T T now).pages = 0 := by
    intro st hst
    unfold countStatus
    have hfil : (generateManifest T T now).pages.filter (fun e => e.status = st) = [] := by
      rw [List.filter_eq_nil_iff]
      intro e he
      have hstatus := (hall e he).1
      simp only [hstatus, decide_eq_true_eq]
      exact fun hc => hst hc.symm
    rw [hfil]
    rfl
  exact ⟨hall, hcount _ (by decide), hcount _ (by decide), hcount _ (by decide)⟩

/-- C5 (witness): the amended statement at a concrete fully-hashed tree. -/
theorem c5_witness :
    (c5HashedTree.map Prod.fst).Nodup
    ∧ (∀ e ∈ (generateManifest c5HashedTree c5HashedTree "t0").pages,
        e.status = EntryStatus.unchanged ∧ e.reindex = false)
    ∧ (generateManifest c5HashedTree c5HashedTree "t0").summary.added = 0
    ∧ (generateManifest c5HashedTree c5HashedTree "t0").summary.changed = 0
    ∧ (generateManifest c5HashedTree c5HashedTree "t0").summary.removed = 0 := by
  refine ⟨by decide, ?_⟩
  have h := c5_diff_self_unchanged c5HashedTree "t0" (by decide) (by decide)
  exact ⟨h.1, h.2.1, h.2.2.1, h.2.2.2⟩

/-! ## Claim C6: `reindex` determined by status; removed entries -/

/-- C6: in every generated manifest, an entry's `reindex` is true exactly
when its status is neither `unchanged` nor `removed` (so every `added` and
`changed` entry has `reindex = true`), and every URL present only in the
old tree yields a `removed` entry with `reindex = false`. -/
theorem c6_reindex_iff_status (oldPages newPages : MetaTree) (now : String) :
    (∀ e ∈ (generateManifest oldPages newPages now).pages,
        e.reindex = true
          ↔ (e.status ≠ EntryStatus.unchanged ∧ e.status ≠ EntryStatus.removed))
    ∧ (∀ p ∈ oldPages, lookupKey p.1 newPages = none →
        ∃ e ∈ (generateManifest oldPages newPages now).pages,
          e.url = p.1 ∧ e.status = EntryStatus.removed ∧ e.reindex = false) := by
  constructor
  · intro e he
    simp only [generateManifest, List.mem_append] at he
    rcases he with he | he
    · obtain ⟨p, hp, rfl⟩ := List.mem_map.mp he
      unfold entryForNew
      cases hl : lookupKey p.1 oldPages with
      | none => simp
      | some oldMeta =>
        cases hnh : p.2.contentHash with
        | none => simp
        | some nh =>
          cases hoh : oldMeta.contentHash with
          | none => simp [hoh]
          | some oh =>
            by_cases heq : nh = oh
            · simp [hoh, heq]
            · simp [hoh, heq]
    · obtain ⟨p, hp, rfl⟩ := List.mem_map.mp he
      simp [entryForRemoved]
  · intro p hp hnone
    refine ⟨entryForRemoved p.1 p.2, ?_, rfl, rfl, rfl⟩
    simp only [generateManifest, List.mem_append]
    right
    refine List.mem_map.mpr ⟨p, ?_, rfl⟩
    refine List.mem_filter.mpr ⟨hp, ?_⟩
    simp [hnone]

/-- C6 (witness): the theorem applied to a concrete pair of trees — the
`added` entry of the new-only URL satisfies the biconditional. -/
theorem c6_witness :
    (⟨"http://h/new", EntryStatus.added, none, true, "f_new", none, none, none⟩ : ManifestEntry)
        ∈ (generateManifest [] [("http://h/new", ⟨some "h1", "f_new", none, 0⟩)] "t0").pages
    ∧ ((⟨"http://h/new", EntryStatus.added, none, true, "f_new", none, none, none⟩ :
          ManifestEntry).reindex = true
        ↔ ((EntryStatus.added ≠ EntryStatus.unchanged)
            ∧ (EntryStatus.added ≠ EntryStatus.removed))) :=
  ⟨by decide,
   (c6_reindex_iff_status [] [("http://h/new", ⟨some "h1", "f_new", none, 0⟩)] "t0").1
     ⟨"http://h/new", EntryStatus.added, none, true, "f_new", none, none, none⟩ (by decide)⟩

/-! ## Claim C7: the canonicalization law -/

/-- C7 (counterexample): two URLs that differ only in the order of their
query parameters — a duplicated key `a` with swapped values — do *not*
normalize identically: `searchParams.sort()` is a stable sort by key, so
the relative order of equal-key parameters is preserved on each side. -/
theorem c7_counterexample :
    parseUrl "http://h/p?a=1&a=2".data
        = some ⟨"http".data, "h".data, "/p".data,
            [("a".data, "1".data), ("a".data, "2".data)], []⟩
    ∧ parseUrl "http://h/p?a=2&a=1".data
        = some ⟨"http".data, "h".data, "/p".data,
            [("a".data, "2".data), ("a".data, "1".data)], []⟩
    ∧ ([("a".data, "1".data), ("a".data, "2".data)] : List (Chars × Chars)).Perm
        [("a".data, "2".data), ("a".data, "1".data)]
    ∧ normalizeUrl "http://h/p?a=1&a=2" ≠ normalizeUrl "http://h/p?a=2&a=1" := by decide

/-- C7 (amended): two parseable URLs agreeing on scheme, host and path
normalize identically whenever their query parameter lists are equal (so
in particular when they differ only in fragment), or are reorderings of
one another with pairwise-distinct keys.  With duplicate keys, only
reorderings preserving the relative order of equal-key parameters are
canonicalized together, by stability of the sort. -/
theorem c7_normalize_canonicalization (s₁ s₂ : String) (u₁ u₂ : Url)
    (h₁ : parseUrl s₁.data = some u₁) (h₂ : parseUrl s₂.data = some u₂)
    (hs : u₁.scheme = u₂.scheme) (hh : u₁.host = u₂.host) (hp : u₁.pathname = u₂.pathname)
    (hq : u₁.query = u₂.query
        ∨ (u₁.query.Perm u₂.query ∧ (u₁.query.map Prod.fst).Nodup)) :
    normalizeUrl s₁ = normalizeUrl s₂ := by
  have hsort : sortParams u₁.query = sortParams u₂.query := by
    rcases hq with hq | ⟨hperm, hnd⟩
    · rw [hq]
    · exact sortParams_eq_of_perm_nodup hperm hnd
  unfold normalizeUrl
  rw [h₁, h₂]
  dsimp only
  show (⟨serializeUrl u₁.canonical⟩ : String) = ⟨serializeUrl u₂.canonical⟩
  have : serializeUrl u₁.canonical = serializeUrl u₂.canonical := by
    unfold serializeUrl Url.canonical
    dsimp only
    rw [hs, hh, hp, hsort]
  rw [this]

/-- C7 (witness): the amended statement at two concrete URLs differing in
fragment and in distinct-key parameter order. -/
theorem c7_witness :
    normalizeUrl "http://h/p?b=2&a=1#frag" = normalizeUrl "http://h/p?a=1&b=2" := by
  refine c7_normalize_canonicalization _ _
    ⟨"http".data, "h".data, "/p".data, [("b".data, "2".data), ("a".data, "1".data)],
      "frag".data⟩
    ⟨"http".data, "h".data, "/p".data, [("a".data, "1".data), ("b".data, "2".data)], []⟩
    (by decide) (by decide) rfl rfl rfl (Or.inr ⟨by decide, by decide⟩)

/-! ## Claim C8: HTTP error pages -/

/-- C8: when navigation returns any 4xx/5xx status (404 included), the
page's URL is recorded in the failed map, the visited set and the frontier
are left exactly as they were (zero new frontier entries), and no
downloads are attempted. -/
theorem c8_http_error_marks_failed_only (cs : CrawlerState) (url : String)
    (currentDepth : Nat) (referrer : Option String) (status : Nat)
    (links : List String) (rootUrls : List String) (now : String)
    (maxDepth maxPages : Nat)
    (hd : ¬ currentDepth > maxDepth) (hp : cs.visited.length < maxPages)
    (hs : 400 ≤ status) :
    (lookupKey (normalizeUrl url)
        (crawlPageModel cs url currentDepth referrer (NavResult.response status links)
          rootUrls now maxDepth maxPages).state.failed).isSome = true
    ∧ (crawlPageModel cs url currentDepth referrer (NavResult.response status links)
        rootUrls now maxDepth maxPages).state.visited = cs.visited
    ∧ (crawlPageModel cs url currentDepth referrer (NavResult.response status links)
        rootUrls now maxDepth maxPages).state.toVisit = cs.toVisit
    ∧ (crawlPageModel cs url currentDepth referrer (NavResult.response status links)
        rootUrls now maxDepth maxPages).downloadsAttempted = [] := by
  have hnp : ¬ cs.visited.length ≥ maxPages := not_le.mpr hp
  unfold crawlPageModel
  rw [if_neg hd, if_neg hnp]
  dsimp only
  by_cases h404 : status = 404
  · rw [if_pos h404]
    refine ⟨?_, rfl, rfl, rfl⟩
    unfold CrawlerState.markFailed
    dsimp only
    rw [lookupKey_setKey_self]
    rfl
  · rw [if_neg h404, if_pos hs]
    refine ⟨?_, rfl, rfl, rfl⟩
    unfold CrawlerState.markFailed
    dsimp only
    rw [lookupKey_setKey_self]
    rfl

/-- C8 (witness): the theorem at a concrete 404 on a fresh state. -/
theorem c8_witness :
    (lookupKey (normalizeUrl "http://h/missing")
        (crawlPageModel emptyCrawlerState "http://h/missing" 0 none
          (NavResult.response 404 []) ["http://h/"] "t0" 15 100000).state.failed).isSome = true
    ∧ (crawlPageModel emptyCrawlerState "http://h/missing" 0 none
        (NavResult.response 404 []) ["http://h/"] "t0" 15 100000).state.visited
        = emptyCrawlerState.visited
    ∧ (crawlPageModel emptyCrawlerState "http://h/missing" 0 none
        (NavResult.response 404 []) ["http://h/"] "t0" 15 100000).state.toVisit
        = emptyCrawlerState.toVisit :=
  have h := c8_http_error_marks_failed_only emptyCrawlerState "http://h/missing" 0 none 404
    [] ["http://h/"] "t0" 15 100000 (by decide) (by decide) (by decide)
  ⟨h.1, h.2.1, h.2.2.1⟩

/-! ## Claim C9: downloadability checked before scope -/

theorem partitionLinks_spec (links rootUrls : List String)
    {docs htmls : List String} (h : partitionLinks links rootUrls = some (docs, htmls)) :
    (∀ l, l ∈ docs ↔ l ∈ links ∧ isDownloadableFileS l = some true)
    ∧ (∀ l, l ∈ htmls
        ↔ l ∈ links ∧ isDownloadableFileS l = some false ∧ isAllowedUrl l rootUrls = true) := by
  induction links generalizing docs htmls with
  | nil =>
    unfold partitionLinks at h
    injection h with h
    have h1 : docs = [] := (congrArg Prod.fst h).symm
    have h2 : htmls = [] := (congrArg Prod.snd h).symm
    subst h1
    subst h2
    simp
  | cons l rest ih =>
    unfold partitionLinks at h
    cases hdl : isDownloadableFileS l with
    | none => rw [hdl] at h; exact Option.noConfusion h
    | some d =>
      rw [hdl] at h
      dsimp only at h
      cases hrec : partitionLinks rest rootUrls with
      | none => rw [hrec] at h; exact Option.noConfusion h
      | some pr =>
        obtain ⟨docs', htmls'⟩ := pr
        rw [hrec] at h
        dsimp only at h
        obtain ⟨ih1, ih2⟩ := ih hrec
        cases d with
        | true =>
          rw [if_pos rfl] at h
          injection h with h
          have hdocs : docs = l :: docs' := (congrArg Prod.fst h).symm
          have hhtmls : htmls = htmls' := (congrArg Prod.snd h).symm
          subst hdocs
          subst hhtmls
          constructor
          · intro l'
            constructor
            · intro hm
              rcases List.mem_cons.mp hm with rfl | hm
              · exact ⟨List.mem_cons_self _ _, hdl⟩
              · obtain ⟨hm1, hm2⟩ := (ih1 l').mp hm
                exact ⟨List.mem_cons_of_mem _ hm1, hm2⟩
            · rintro ⟨hl', hdl'⟩
              rcases List.mem_cons.mp hl' with rfl | hl'
              · exact List.mem_cons_self _ _
              · exact List.mem_cons_of_mem _ ((ih1 l').mpr ⟨hl', hdl'⟩)
          · intro l'
            constructor
            · intro hm
              obtain ⟨hm1, hm2, hm3⟩ := (ih2 l').mp hm
              exact ⟨List.mem_cons_of_mem _ hm1, hm2, hm3⟩
            · rintro ⟨hl', hdl', hal'⟩
              rcases List.mem_cons.mp hl' with rfl | hl'
              · rw [hdl] at hdl'
                exact absurd (Option.some.inj hdl') (by decide)
              · exact (ih2 l').mpr ⟨hl', hdl', hal'⟩
        | false =>
          rw [if_neg (by decide)] at h
          by_cases hal : isAllowedUrl l rootUrls = true
          · rw [if_pos hal] at h
            injection h with h
            have hdocs : docs = docs' := (congrArg Prod.fst h).symm
            have hhtmls : htmls = l :: htmls' := (congrArg Prod.snd h).symm
            subst hdocs
            subst hhtmls
            constructor
            · intro l'
              constructor
              · intro hm
                obtain ⟨hm1, hm2⟩ := (ih1 l').mp hm
                exact ⟨List.mem_cons_of_mem _ hm1, hm2⟩
              · rintro ⟨hl', hdl'⟩
                rcases List.mem_cons.mp hl' with rfl | hl'
                · rw [hdl] at hdl'
                  exact absurd (Option.some.inj hdl') (by decide)
                · exact (ih1 l').mpr ⟨hl', hdl'⟩
            · intro l'
              constructor
              · intro hm
                rcases List.mem_cons.mp hm with rfl | hm
                · exact ⟨List.mem_cons_self _ _, hdl, hal⟩
                · obtain ⟨hm1, hm2, hm3⟩ := (ih2 l').mp hm
                  exact ⟨List.mem_cons_of_mem _ hm1, hm2, hm3⟩
              · rintro ⟨hl', hdl', hal'⟩
                rcases List.mem_cons.mp hl' with rfl | hl'
                · exact List.mem_cons_self _ _
                · exact List.mem_cons_of_mem _ ((ih2 l').mpr ⟨hl', hdl', hal'⟩)
          · rw [if_neg hal] at h
            injection h with h
            have hdocs : docs = docs' := (congrArg Prod.fst h).symm
            have hhtmls : htmls = htmls' := (congrArg Prod.snd h).symm
            subst hdocs
            subst hhtmls
            constructor
            · intro l'
              constructor
              · intro hm
                obtain ⟨hm1, hm2⟩ := (ih1 l').mp hm
                exact ⟨List.mem_cons_of_mem _ hm1, hm2⟩
              · rintro ⟨hl', hdl'⟩
                rcases List.mem_cons.mp hl' with rfl | hl'
                · rw [hdl] at hdl'
                  exact absurd (Option.some.inj hdl') (by decide)
                · exact (ih1 l').mpr ⟨hl', hdl'⟩
            · intro l'
              constructor
              · intro hm
                obtain ⟨hm1, hm2, hm3⟩ := (ih2 l').mp hm
                exact ⟨List.mem_cons_of_mem _ hm1, hm2, hm3⟩
              · rintro ⟨hl', hdl', hal'⟩
                rcases List.mem_cons.mp hl' with rfl | hl'
                · exact absurd hal' hal
                · exact (ih2 l').mpr ⟨hl', hdl', hal'⟩

/-- C9: in the link partition of `crawlPage`, every extracted link is
classified by `isDownloadableFile` first — the document list contains
exactly the downloadable links, scope never being consulted for them, so a
downloadable link outside the root-URL scope is still collected (and, on a
successful page, every collected document link is download-attempted);
only non-downloadable links are filtered by `isAllowedUrl`
(scope + exclusion). -/
theorem c9_downloadable_before_scope (links rootUrls docs htmls : List String)
    (h : partitionLinks links rootUrls = some (docs, htmls)) :
    (∀ l, l ∈ docs ↔ l ∈ links ∧ isDownloadableFileS l = some true)
    ∧ (∀ l, l ∈ htmls
        ↔ l ∈ links ∧ isDownloadableFileS l = some false ∧ isAllowedUrl l rootUrls = true)
    ∧ (∀ l ∈ links, isDownloadableFileS l = some true →
        isUnderRootUrl l rootUrls = false → l ∈ docs)
    ∧ (∀ (cs : CrawlerState) (url : String) (currentDepth : Nat) (referrer : Option String)
        (now : String) (maxDepth maxPages : Nat),
        ¬ currentDepth > maxDepth → cs.visited.length < maxPages →
        (crawlPageModel cs url currentDepth referrer (NavResult.response 200 links)
          rootUrls now maxDepth maxPages).downloadsAttempted = docs) := by
  obtain ⟨h1, h2⟩ := partitionLinks_spec links rootUrls h
  refine ⟨h1, h2, ?_, ?_⟩
  · intro l hl hdl _
    exact (h1 l).mpr ⟨hl, hdl⟩
  · intro cs url currentDepth referrer now maxDepth maxPages hd hp
    have hnp : ¬ cs.visited.length ≥ maxPages := not_le.mpr hp
    unfold crawlPageModel
    rw [if_neg hd, if_neg hnp]
    dsimp only
    rw [if_neg (by decide : ¬(200 = 404)), if_neg (by decide : ¬(400 ≤ 200)), h]

/-- C9 (witness): the theorem at a concrete link list containing a
downloadable file on a foreign host, an in-scope page and an out-of-scope
page: the foreign PDF lands in the download list. -/
theorem c9_witness :
    partitionLinks
        ["https://other.org/files/report.pdf", "https://example.org/docs/a",
         "https://elsewhere.org/x"]
        ["https://example.org/docs/"]
      = some (["https://other.org/files/report.pdf"], ["https://example.org/docs/a"])
    ∧ "https://other.org/files/report.pdf" ∈ ["https://other.org/files/report.pdf"] := by
  refine ⟨by decide, ?_⟩
  exact (c9_downloadable_before_scope
      ["https://other.org/files/report.pdf", "https://example.org/docs/a",
       "https://elsewhere.org/x"]
      ["https://example.org/docs/"]
      ["https://other.org/files/report.pdf"] ["https://example.org/docs/a"]
      (by decide)).2.2.1
    "https://other.org/files/report.pdf" (by decide) (by decide) (by decide)

/-! ## Claim C10: the failed map never blocks re-enqueueing -/

/-- C10: `addUrl` never consults the failed map — its frontier effect is
the same for any contents of `failed` — so a URL recorded in `failed` but
in neither `visited` nor the frontier is enqueued again on rediscovery,
and a subsequent `markFailed` overwrites its failure record with the most
recent error. -/
theorem c10_failed_never_blocks_requeue (cs : CrawlerState) (url : String)
    (ref ref' : Option String) (d : Nat) (now error now' : String) (fr : FailureRecord)
    (f : List (String × FailureRecord))
    (hne : normalizeUrl url ≠ "") (hnv : normalizeUrl url ∉ cs.visited)
    (hnq : lookupKey (normalizeUrl url) cs.toVisit = none)
    (hf : lookupKey (normalizeUrl url) cs.failed = some fr) :
    (CrawlerState.addUrl { cs with failed := f } url ref d now).toVisit
        = (cs.addUrl url ref d now).toVisit
    ∧ lookupKey (normalizeUrl url) ((cs.addUrl url ref d now).toVisit)
        = some ⟨ref, now, d⟩
    ∧ lookupKey (normalizeUrl url) ((cs.markFailed url error ref' now').failed)
        = some ⟨error, now', ref'⟩ := by
  refine ⟨?_, ?_, ?_⟩
  · unfold CrawlerState.addUrl
    dsimp only
    split
    · rfl
    · split
      · rfl
      · rfl
  · unfold CrawlerState.addUrl
    dsimp only
    rw [if_neg hne, if_neg (by
      push_neg
      refine ⟨hnv, ?_⟩
      simp [hnq])]
    dsimp only
    rw [lookupKey_append_of_none hnq]
    simp [lookupKey]
  · unfold CrawlerState.markFailed
    dsimp only
    exact lookupKey_setKey_self _ _ _

/-- C10 (witness): the theorem at a concrete state whose failed map
already holds a record for the URL. -/
theorem c10_witness :
    lookupKey (normalizeUrl "http://h/x")
        (CrawlerState.failed ⟨[], [], [("http://h/x", ⟨"HTTP 500", "t0", none⟩)]⟩)
      = some ⟨"HTTP 500", "t0", none⟩
    ∧ lookupKey (normalizeUrl "http://h/x")
        ((CrawlerState.addUrl ⟨[], [], [("http://h/x", ⟨"HTTP 500", "t0", none⟩)]⟩
            "http://h/x" (some "http://h/r") 2 "t1").toVisit)
      = some ⟨some "http://h/r", "t1", 2⟩
    ∧ lookupKey (normalizeUrl "http://h/x")
        ((CrawlerState.markFailed ⟨[], [], [("http://h/x", ⟨"HTTP 500", "t0", none⟩)]⟩
            "http://h/x" "HTTP 503" none "t2").failed)
      = some ⟨"HTTP 503", "t2", none⟩ := by
  refine ⟨by decide, ?_⟩
  have h := c10_failed_never_blocks_requeue
    ⟨[], [], [("http://h/x", ⟨"HTTP 500", "t0", none⟩)]⟩ "http://h/x"
    (some "http://h/r") none 2 "t1" "HTTP 503" "t2" ⟨"HTTP 500", "t0", none⟩ []
    (by decide) (by decide) (by decide) (by decide)
  exact ⟨h.2.1, h.2.2⟩
